import Mathlib

/-!
Shallow embedding of the dependency-manager core
(`src/singleton/DependencyManager.hpp`, `src/singleton/SingletonWithDependency.hpp`).

Vertices are natural numbers (the `vecS` vertex descriptors of the Boost
adjacency list, i.e. positions in the vertex sequence).  Edges are kept in
insertion order, mirroring the `vecS` out-edge storage; ids are `Nat`
(the source instantiates `ID = std::size_t`); edge labels are `Nat`.

Effectful cleanup closures are modelled by identity: invoking the cleanup
of vertex `v` appends `v` to an invocation trace; a failing cleanup is
modelled by a predicate `fails : Nat → Bool` on vertices (the closure is
fixed at registration and never replaced, so the vertex determines it).
-/

/-- Vertex bundle: `singleton::DependencyComponent`.  The `cleaner`
closure is represented by the owning vertex (see module comment), so only
the `is_deleted` flag and the stored id remain.  The two-argument
constructor of the source sets `is_deleted` to `false`; the default
constructor sets it to `true`. -/
structure DependencyComponent where
  is_deleted : Bool
  cid : Nat
deriving Repr, DecidableEq

/-- The source's default constructor: `is_deleted(true), id(0u)`. -/
instance : Inhabited DependencyComponent := ⟨⟨true, 0⟩⟩

/-- `DependencyComponent::clear()`: runs `cleaner()` (the effect is traced
by the caller) and then assigns `is_deleted = false;` — exactly as the
source writes it. -/
def DependencyComponent.clear (c : DependencyComponent) : DependencyComponent :=
  { c with is_deleted := false }

/-- One directed edge of the adjacency list, with its label. -/
structure EdgeRec where
  src : Nat
  dst : Nat
  label : Nat
deriving Repr, DecidableEq

/-- The state of a `DependencyManager`: the vertex bundles (index = vertex
descriptor), the edge sequence in insertion order, and `m_vertices_map`. -/
structure ManagerState where
  records : List DependencyComponent
  edges : List EdgeRec
  idMap : List (Nat × Nat)
deriving Repr, DecidableEq

/-- The empty manager (freshly constructed singleton). -/
def emptyManager : ManagerState := ⟨[], [], []⟩

/-- Out-neighbours of `u`, in edge-insertion order (the `vecS` out-edge
list of the Boost graph preserves per-vertex insertion order). -/
def outNeighbors (E : List EdgeRec) (u : Nat) : List Nat :=
  (E.filter (fun e => e.src == u)).map (fun e => e.dst)

/-- BFS enqueue step: append each not-yet-discovered neighbour to the
discovery list and the queue (Boost colours a vertex grey exactly once). -/
def bfsEnqueue : List Nat → List Nat → List Nat → List Nat × List Nat
  | [], disc, queue => (disc, queue)
  | v :: vs, disc, queue =>
    if v ∈ disc then bfsEnqueue vs disc queue
    else bfsEnqueue vs (disc ++ [v]) (queue ++ [v])

/-- The BFS worklist loop of `boost::breadth_first_search`: pop the queue
head, enqueue its undiscovered out-neighbours.  `fuel` bounds the number
of pops; `n` pops suffice when all vertices are below `n`. -/
def bfsGo (E : List EdgeRec) : Nat → List Nat → List Nat → List Nat
  | 0, _, disc => disc
  | _ + 1, [], disc => disc
  | fuel + 1, u :: queue, disc =>
    bfsGo E fuel (bfsEnqueue (outNeighbors E u) disc queue).2
      (bfsEnqueue (outNeighbors E u) disc queue).1

/-- Discovery order of a breadth-first search from `root` over edge list
`E` on a graph with `n` vertices: the source vertex is discovered first. -/
def bfsFrom (E : List EdgeRec) (n root : Nat) : List Nat :=
  bfsGo E n [root] [root]

/-- `edge(u, v, g).second` of the registration path: is the directed edge
`(u, v)` already present? -/
def hasEdge (s : ManagerState) (u v : Nat) : Bool :=
  s.edges.any (fun e => e.src == u && e.dst == v)

/-- `DependencyManager::detect_cycle`: BFS over the full graph starting at
the dependency's target; the halting visitor fires when the discovered
vertex equals the source.  Returns `true` iff the BFS discovers `srcV`. -/
def detect_cycle (s : ManagerState) (srcV dstV : Nat) : Bool :=
  (bfsFrom s.edges s.records.length dstV).contains srcV

/-- Registration errors of the core (each `throw std::runtime_error` site).
The error carries the manager state at the moment of the throw, so that
frame properties of failing calls are expressible. -/
inductive RegError where
  | alreadyExists
  | unknownId
  | duplicateEdge
  | wouldCycle
deriving Repr, DecidableEq

/-- `DependencyManager::register_component`: if the id is unknown,
`add_vertex` the bundle and `emplace` the id; otherwise throw. -/
def register_component (s : ManagerState) (i : Nat) (prop : DependencyComponent) :
    Except (RegError × ManagerState) ManagerState :=
  match List.lookup i s.idMap with
  | none =>
    Except.ok { s with
      records := s.records ++ [prop],
      idMap := s.idMap ++ [(i, s.records.length)] }
  | some _ => Except.error (RegError.alreadyExists, s)

/-- `DependencyManager::register_dependency`: look both ids up, reject an
unknown id, then a duplicate edge, then run `detect_cycle`; only then
`add_edge` and install the edge property. -/
def register_dependency (s : ManagerState) (src_id dst_id lab : Nat) :
    Except (RegError × ManagerState) ManagerState :=
  match List.lookup src_id s.idMap, List.lookup dst_id s.idMap with
  | some sv, some dv =>
    if hasEdge s sv dv then Except.error (RegError.duplicateEdge, s)
    else if detect_cycle s sv dv then Except.error (RegError.wouldCycle, s)
    else Except.ok { s with edges := s.edges ++ [⟨sv, dv, lab⟩] }
  | _, _ => Except.error (RegError.unknownId, s)

/-- `DependencyManager::is_root_dependency`: no in-edges. -/
def is_root_dependency (E : List EdgeRec) (v : Nat) : Bool :=
  E.all (fun e => e.dst != v)

/-- `DependencyManager::get_deletion_stack` with the `keep_all` vertex
predicate the source passes: BFS discovery order from `root` over the
unfiltered graph. -/
def get_deletion_stack (s : ManagerState) (root : Nat) : List Nat :=
  bfsFrom s.edges s.records.length root

/-- Modelled from the spec: `DependencyCleaner`, the `Deleter` the
repository instantiates `DependencyManager` with, is referenced in
`SingletonWithDependency.hpp` but defined nowhere under `src/`.  Per the
spec's teardown step ("Invoke `cleanup` ...; after invocation the vertex
transitions to `CleanedUp`") it invokes the record's cleanup, i.e. it
calls `DependencyComponent::clear()` on the vertex bundle; the invocation
itself is recorded in the trace by the sweep loops below. -/
def applyDeleter (s : ManagerState) (v : Nat) : ManagerState :=
  { s with records := s.records.set v (s.records.getD v default).clear }

/-- The loop body of `perform_deletion_from`: walk a (already reversed)
deletion stack, invoking the deleter on each vertex and tracing the
invocation. -/
def runStack : List Nat → ManagerState → List Nat → ManagerState × List Nat
  | [], s, tr => (s, tr)
  | u :: us, s, tr => runStack us (applyDeleter s u) (tr ++ [u])

/-- `DependencyManager::perform_deletion_from`: compute the deletion stack
from `v` and apply the deleter in reverse discovery order. -/
def perform_deletion_from (s : ManagerState) (v : Nat) : ManagerState × List Nat :=
  runStack (get_deletion_stack s v).reverse s []

/-- The vertex loop of `DependencyManager::clear`: for each vertex in
descriptor order, if it is a root, perform deletion from it. -/
def runRoots : List Nat → ManagerState → List Nat → ManagerState × List Nat
  | [], s, tr => (s, tr)
  | v :: vs, s, tr =>
    if is_root_dependency s.edges v then
      runRoots vs (perform_deletion_from s v).1 (tr ++ (perform_deletion_from s v).2)
    else runRoots vs s tr

/-- `DependencyManager::clear`: the shutdown sweep.  Returns the state
after the sweep together with the cleanup-invocation trace (vertices in
invocation order). -/
def clear (s : ManagerState) : ManagerState × List Nat :=
  runRoots (List.range s.records.length) s []

/-- Failure-aware deletion-stack loop: a failing cleanup throws out of
`cleaner()` inside `DependencyComponent::clear` — before the flag
assignment — and nothing in `perform_deletion_from` or `clear` catches, so
the exception aborts the whole sweep.  The error carries the state at the
throw, the trace so far (the failing invocation was entered, so it is
traced), and the failing vertex. -/
def runStackF (fails : Nat → Bool) :
    List Nat → ManagerState → List Nat →
    Except (ManagerState × List Nat × Nat) (ManagerState × List Nat)
  | [], s, tr => Except.ok (s, tr)
  | u :: us, s, tr =>
    if fails u then Except.error (s, tr ++ [u], u)
    else runStackF fails us (applyDeleter s u) (tr ++ [u])

/-- Failure-aware vertex loop of `clear`: an exception from a deletion
stack propagates out of the sweep. -/
def runRootsF (fails : Nat → Bool) :
    List Nat → ManagerState → List Nat →
    Except (ManagerState × List Nat × Nat) (ManagerState × List Nat)
  | [], s, tr => Except.ok (s, tr)
  | v :: vs, s, tr =>
    if is_root_dependency s.edges v then
      match runStackF fails (get_deletion_stack s v).reverse s tr with
      | Except.ok (s', tr') => runRootsF fails vs s' tr'
      | Except.error e => Except.error e
  else runRootsF fails vs s tr

/-- The shutdown sweep when cleanup actions may fail. -/
def clearF (fails : Nat → Bool) (s : ManagerState) :
    Except (ManagerState × List Nat × Nat) (ManagerState × List Nat) :=
  runRootsF fails (List.range s.records.length) s []

/-- The record registered for id `i` by
`SingletonWithDependency::do_registration`:
`DependencyComponent(id, cleaner)`, hence `Live` (`is_deleted = false`). -/
def mkComponent (i : Nat) : DependencyComponent := ⟨false, i⟩

/-- Edge relation of an edge list: a directed edge from `u` to `v`. -/
def EdgeRelE (E : List EdgeRec) (u v : Nat) : Prop :=
  ∃ e ∈ E, e.src = u ∧ e.dst = v

/-- Edge relation of a state: there is a directed edge from `u` to `v`. -/
def EdgeRel (s : ManagerState) : Nat → Nat → Prop :=
  EdgeRelE s.edges

/-- `u` reaches `v` along directed edges (reflexively). -/
def Reaches (s : ManagerState) (u v : Nat) : Prop :=
  Relation.ReflTransGen (EdgeRel s) u v

/-- The graph of a state has no directed cycle. -/
def AcyclicState (s : ManagerState) : Prop :=
  ∀ v, ¬ Relation.TransGen (EdgeRel s) v v

/-- Well-formedness: every edge endpoint and every id-map vertex is a
valid vertex descriptor. -/
def WFState (s : ManagerState) : Prop :=
  (∀ e ∈ s.edges, e.src < s.records.length ∧ e.dst < s.records.length) ∧
  (∀ p ∈ s.idMap, p.2 < s.records.length)

/-- States reachable through the public API, as driven by the repository's
collaborator (`do_registration` registers `DependencyComponent(id, cleaner)`
records): the empty manager, plus successful `register_component` /
`register_dependency` steps.  Failing calls throw and (as proved below)
leave the state unchanged, so they add no states. -/
inductive APIReachable : ManagerState → Prop where
  | init : APIReachable emptyManager
  | regc {s s' : ManagerState} {i : Nat} :
      APIReachable s → register_component s i (mkComponent i) = Except.ok s' →
      APIReachable s'
  | regd {s s' : ManagerState} {a b l : Nat} :
      APIReachable s → register_dependency s a b l = Except.ok s' →
      APIReachable s'

-- Concrete states used by the claim instances below.

/-- One component, id 10 at vertex 0. -/
def st1 : ManagerState := ⟨[⟨false, 10⟩], [], [(10, 0)]⟩

/-- Two isolated components, ids 10 and 11 at vertices 0 and 1. -/
def st2 : ManagerState := ⟨[⟨false, 10⟩, ⟨false, 11⟩], [], [(10, 0), (11, 1)]⟩

/-- Two components with one dependency edge 0 → 1. -/
def stChain : ManagerState :=
  ⟨[⟨false, 10⟩, ⟨false, 11⟩], [⟨0, 1, 7⟩], [(10, 0), (11, 1)]⟩

/-- Three components, edges 0 → 1, 0 → 2, 2 → 1 (a DAG: vertex 1 is
reachable from the root both directly and through vertex 2, and sits at
BFS depth 1 while its predecessor 2 also sits at depth 1). -/
def stTri : ManagerState :=
  ⟨[⟨false, 10⟩, ⟨false, 11⟩, ⟨false, 12⟩],
   [⟨0, 1, 0⟩, ⟨0, 2, 0⟩, ⟨2, 1, 0⟩],
   [(10, 0), (11, 1), (12, 2)]⟩

/-- Three components, edges 0 → 2 and 1 → 2: vertex 2 is reachable from
the two roots 0 and 1. -/
def stTwoRoots : ManagerState :=
  ⟨[⟨false, 10⟩, ⟨false, 11⟩, ⟨false, 12⟩],
   [⟨0, 2, 0⟩, ⟨1, 2, 0⟩],
   [(10, 0), (11, 1), (12, 2)]⟩

/-- The failure pattern used for the cleanup-failure scenarios: the
cleanup of vertex 0 fails, every other cleanup succeeds. -/
def failsV0 : Nat → Bool := fun v => v == 0

/-- `x`'s cleanup is invoked (first) strictly before `y`'s in trace `tr`;
in the sequential sweep this is exactly "`x.cleanup` completes before
`y.cleanup` is entered". -/
def invokedBefore (tr : List Nat) (x y : Nat) : Prop :=
  tr.indexOf x < tr.indexOf y

/-- The call failed with the would-cycle error (whatever state the
exception left behind). -/
def IsWouldCycleError (r : Except (RegError × ManagerState) ManagerState) : Prop :=
  ∃ s', r = Except.error (RegError.wouldCycle, s')

/-- The cleanup-invocation trace of a (possibly aborted) sweep. -/
def sweepTrace
    (r : Except (ManagerState × List Nat × Nat) (ManagerState × List Nat)) :
    List Nat :=
  match r with
  | Except.ok (_, tr) => tr
  | Except.error (_, tr, _) => tr

example : clear stTri = (stTri, [2, 1, 0]) := by decide
example : clear stTwoRoots = (stTwoRoots, [2, 0, 2, 1]) := by decide
example : clearF failsV0 st2 = Except.error (st2, [0], 0) := rfl
example : detect_cycle stChain 1 0 = true := by decide
example : detect_cycle stChain 0 1 = false := by decide
example : register_dependency st1 10 10 3 = Except.error (RegError.wouldCycle, st1) := rfl

/-! ### The breadth-first search computes reachability -/

theorem mem_outNeighbors {E : List EdgeRec} {u v : Nat} :
    v ∈ outNeighbors E u ↔ EdgeRelE E u v := by
  simp only [outNeighbors, EdgeRelE, List.mem_map, List.mem_filter, beq_iff_eq]
  constructor
  · rintro ⟨e, ⟨he, hs⟩, hd⟩
    exact ⟨e, he, hs, hd⟩
  · rintro ⟨e, he, hs, hd⟩
    exact ⟨e, ⟨he, hs⟩, hd⟩

theorem bfsEnqueue_eq (ns : List Nat) : ∀ disc queue : List Nat,
    ∃ f, bfsEnqueue ns disc queue = (disc ++ f, queue ++ f) ∧
      (∀ x ∈ f, x ∈ ns) ∧ (disc.Nodup → (disc ++ f).Nodup) := by
  induction ns with
  | nil =>
    intro disc queue
    exact ⟨[], by simp [bfsEnqueue], by simp, by simp⟩
  | cons v vs ih =>
    intro disc queue
    by_cases hv : v ∈ disc
    · obtain ⟨f, heq, hmem, hnd⟩ := ih disc queue
      exact ⟨f, by simp [bfsEnqueue, hv, heq],
        fun x hx => List.mem_cons_of_mem _ (hmem x hx), hnd⟩
    · obtain ⟨f, heq, hmem, hnd⟩ := ih (disc ++ [v]) (queue ++ [v])
      refine ⟨v :: f, ?_, ?_, ?_⟩
      · simp only [bfsEnqueue, if_neg hv, heq]
        simp
      · intro x hx
        rcases List.mem_cons.mp hx with rfl | hx
        · exact List.mem_cons_self _ _
        · exact List.mem_cons_of_mem _ (hmem x hx)
      · intro hdn
        have hdv : (disc ++ [v]).Nodup := by
          simp [List.nodup_append, hdn, hv]
        simpa [List.append_assoc] using hnd hdv

theorem mem_bfsEnqueue_left (ns : List Nat) (disc queue : List Nat) (x : Nat)
    (hx : x ∈ disc) : x ∈ (bfsEnqueue ns disc queue).1 := by
  obtain ⟨f, heq, -, -⟩ := bfsEnqueue_eq ns disc queue
  rw [heq]
  exact List.mem_append_left _ hx

theorem mem_bfsEnqueue_of_mem (ns : List Nat) : ∀ (disc queue : List Nat) (x : Nat),
    x ∈ ns → x ∈ (bfsEnqueue ns disc queue).1 := by
  induction ns with
  | nil => simp
  | cons v vs ih =>
    intro disc queue x hx
    rcases List.mem_cons.mp hx with rfl | hx
    · by_cases hv : x ∈ disc
      · simp only [bfsEnqueue, if_pos hv]
        exact mem_bfsEnqueue_left vs _ _ x hv
      · simp only [bfsEnqueue, if_neg hv]
        exact mem_bfsEnqueue_left vs _ _ x (by simp)
    · by_cases hv : v ∈ disc
      · simp only [bfsEnqueue, if_pos hv]
        exact ih _ _ x hx
      · simp only [bfsEnqueue, if_neg hv]
        exact ih _ _ x hx

theorem bfsGo_subset (E : List EdgeRec) : ∀ (fuel : Nat) (queue disc : List Nat),
    ∀ x ∈ disc, x ∈ bfsGo E fuel queue disc := by
  intro fuel
  induction fuel with
  | zero =>
    intro queue disc x hx
    simpa [bfsGo] using hx
  | succ n ih =>
    intro queue disc x hx
    cases queue with
    | nil => simpa [bfsGo] using hx
    | cons u rest =>
      simp only [bfsGo]
      exact ih _ _ x (mem_bfsEnqueue_left _ _ _ x hx)

theorem root_mem_bfsFrom (E : List EdgeRec) (n root : Nat) :
    root ∈ bfsFrom E n root :=
  bfsGo_subset E n [root] [root] root (by simp)

theorem bfsGo_sound (E : List EdgeRec) (root : Nat) :
    ∀ (fuel : Nat) (queue disc : List Nat),
    (∀ x ∈ disc, Relation.ReflTransGen (EdgeRelE E) root x) →
    (∀ x ∈ queue, x ∈ disc) →
    ∀ x ∈ bfsGo E fuel queue disc, Relation.ReflTransGen (EdgeRelE E) root x := by
  intro fuel
  induction fuel with
  | zero =>
    intro queue disc hd hq x hx
    exact hd x (by simpa [bfsGo] using hx)
  | succ n ih =>
    intro queue disc hd hq x hx
    cases queue with
    | nil => exact hd x (by simpa [bfsGo] using hx)
    | cons u rest =>
      simp only [bfsGo] at hx
      obtain ⟨f, heq, hfmem, -⟩ := bfsEnqueue_eq (outNeighbors E u) disc rest
      rw [heq] at hx
      refine ih (rest ++ f) (disc ++ f) ?_ ?_ x hx
      · intro y hy
        rcases List.mem_append.mp hy with hy | hy
        · exact hd y hy
        · have hedge : EdgeRelE E u y := mem_outNeighbors.mp (hfmem y hy)
          exact (hd u (hq u (List.mem_cons_self u rest))).tail hedge
      · intro y hy
        rcases List.mem_append.mp hy with hy | hy
        · exact List.mem_append_left _ (hq y (List.mem_cons_of_mem u hy))
        · exact List.mem_append_right _ hy

theorem bfsGo_closed (E : List EdgeRec) (N : Nat)
    (hE : ∀ e ∈ E, e.dst < N) :
    ∀ (fuel : Nat) (queue disc : List Nat),
    disc.Nodup →
    (∀ x ∈ disc, x < N) →
    (∀ x ∈ queue, x ∈ disc) →
    (∀ u ∈ disc, u ∉ queue → ∀ v, EdgeRelE E u v → v ∈ disc) →
    (N - disc.length) + queue.length ≤ fuel →
    ∀ u ∈ bfsGo E fuel queue disc, ∀ v, EdgeRelE E u v →
      v ∈ bfsGo E fuel queue disc := by
  intro fuel
  induction fuel with
  | zero =>
    intro queue disc hnd hb hq hcl hfuel
    have hq0 : queue = [] := List.length_eq_zero.mp (by omega)
    subst hq0
    simp only [bfsGo]
    exact fun u hu v hv => hcl u hu (by simp) v hv
  | succ n ih =>
    intro queue disc hnd hb hq hcl hfuel
    cases queue with
    | nil =>
      simp only [bfsGo]
      exact fun u hu v hv => hcl u hu (by simp) v hv
    | cons w rest =>
      simp only [bfsGo]
      obtain ⟨f, heq, hfmem, hfnd⟩ := bfsEnqueue_eq (outNeighbors E w) disc rest
      rw [heq]
      have hnd' : (disc ++ f).Nodup := hfnd hnd
      have hb' : ∀ x ∈ disc ++ f, x < N := by
        intro x hx
        rcases List.mem_append.mp hx with hx | hx
        · exact hb x hx
        · obtain ⟨e, he, -, hd⟩ := mem_outNeighbors.mp (hfmem x hx)
          exact hd ▸ hE e he
      have hq' : ∀ x ∈ rest ++ f, x ∈ disc ++ f := by
        intro x hx
        rcases List.mem_append.mp hx with hx | hx
        · exact List.mem_append_left _ (hq x (List.mem_cons_of_mem w hx))
        · exact List.mem_append_right _ hx
      have hcl' : ∀ u ∈ disc ++ f, u ∉ rest ++ f → ∀ v, EdgeRelE E u v →
          v ∈ disc ++ f := by
        intro y hy hyq v hv
        by_cases hyw : y = w
        · subst hyw
          have hvmem := mem_bfsEnqueue_of_mem (outNeighbors E y) disc rest v
            (mem_outNeighbors.mpr hv)
          rw [heq] at hvmem
          exact hvmem
        · have hyd : y ∈ disc := by
            rcases List.mem_append.mp hy with h | h
            · exact h
            · exact absurd (List.mem_append_right rest h) hyq
          have hynq : y ∉ w :: rest := by
            intro hmem
            rcases List.mem_cons.mp hmem with h | h
            · exact hyw h
            · exact hyq (List.mem_append_left _ h)
          exact List.mem_append_left _ (hcl y hyd hynq v hv)
      have hlen : (disc ++ f).length ≤ N := by
        have hsub : (disc ++ f) ⊆ List.range N := fun x hx =>
          List.mem_range.mpr (hb' x hx)
        have hle := (hnd'.subperm hsub).length_le
        simpa using hle
      have hfuel' : (N - (disc ++ f).length) + (rest ++ f).length ≤ n := by
        simp only [List.length_append] at hlen ⊢
        simp only [List.length_cons] at hfuel
        omega
      exact ih (rest ++ f) (disc ++ f) hnd' hb' hq' hcl' hfuel'

theorem bfs_sound (E : List EdgeRec) (n root : Nat) :
    ∀ x ∈ bfsFrom E n root, Relation.ReflTransGen (EdgeRelE E) root x := by
  intro x hx
  refine bfsGo_sound E root n [root] [root] ?_ (fun y hy => hy) x hx
  intro y hy
  rcases List.mem_singleton.mp hy with rfl
  exact Relation.ReflTransGen.refl

theorem bfs_complete (E : List EdgeRec) (N root : Nat) (hroot : root < N)
    (hE : ∀ e ∈ E, e.dst < N) :
    ∀ x, Relation.ReflTransGen (EdgeRelE E) root x → x ∈ bfsFrom E N root := by
  have hclosed := bfsGo_closed E N hE N [root] [root]
    (by simp) (by simpa using hroot) (fun y hy => hy)
    (by
      intro u hu hnq
      exact absurd hu hnq)
    (by
      simp only [List.length_cons, List.length_nil]
      omega)
  intro x hx
  induction hx with
  | refl => exact root_mem_bfsFrom E N root
  | tail hab hbc ih => exact hclosed _ ih _ hbc

theorem bfs_mem_iff (E : List EdgeRec) (N root : Nat) (hroot : root < N)
    (hE : ∀ e ∈ E, e.dst < N) (x : Nat) :
    x ∈ bfsFrom E N root ↔ Relation.ReflTransGen (EdgeRelE E) root x :=
  ⟨bfs_sound E N root x, bfs_complete E N root hroot hE x⟩

/-! ### Adding an edge whose target does not reach its source preserves
acyclicity -/

theorem reach_decomp {α : Type} {r : α → α → Prop} {a b : α}
    (hnb : ¬ Relation.ReflTransGen r b a) :
    ∀ {x y : α},
      Relation.ReflTransGen (fun u w => r u w ∨ (u = a ∧ w = b)) x y →
      Relation.ReflTransGen r x y ∨
        (Relation.ReflTransGen r x a ∧ Relation.ReflTransGen r b y) := by
  intro x y h
  induction h using Relation.ReflTransGen.head_induction_on with
  | refl => exact Or.inl Relation.ReflTransGen.refl
  | head hstep htail ih =>
    rcases hstep with hr | ⟨rfl, rfl⟩
    · rcases ih with ih | ⟨ih1, ih2⟩
      · exact Or.inl (ih.head hr)
      · exact Or.inr ⟨ih1.head hr, ih2⟩
    · rcases ih with ih | ⟨ih1, ih2⟩
      · exact Or.inr ⟨Relation.ReflTransGen.refl, ih⟩
      · exact absurd ih1 hnb

theorem acyclic_extend {α : Type} {r : α → α → Prop} {a b : α}
    (hac : ∀ v, ¬ Relation.TransGen r v v)
    (hnb : ¬ Relation.ReflTransGen r b a) :
    ∀ v, ¬ Relation.TransGen (fun u w => r u w ∨ (u = a ∧ w = b)) v v := by
  intro v hv
  obtain ⟨w, hvw, hwv⟩ := Relation.TransGen.head'_iff.mp hv
  rcases hvw with hr | ⟨rfl, rfl⟩
  · rcases reach_decomp hnb hwv with h | ⟨h1, h2⟩
    · exact hac v (Relation.TransGen.head' hr h)
    · exact hnb (h2.trans (Relation.ReflTransGen.head hr h1))
  · rcases reach_decomp hnb hwv with h | ⟨h1, h2⟩
    · exact hnb h
    · exact hnb h1

theorem transGen_congr {α : Type} {r q : α → α → Prop}
    (h : ∀ u v, r u v ↔ q u v) {x y : α} :
    Relation.TransGen r x y → Relation.TransGen q x y :=
  fun ht => Relation.TransGen.mono (fun u v hr => (h u v).mp hr) ht

theorem edgeRel_append_iff (s : ManagerState) (e₀ : EdgeRec) (u v : Nat) :
    EdgeRelE (s.edges ++ [e₀]) u v ↔ EdgeRel s u v ∨ (u = e₀.src ∧ v = e₀.dst) := by
  simp only [EdgeRelE, EdgeRel, List.mem_append, List.mem_singleton]
  constructor
  · rintro ⟨e, he | rfl, hs, hd⟩
    · exact Or.inl ⟨e, he, hs, hd⟩
    · exact Or.inr ⟨hs.symm, hd.symm⟩
  · rintro (⟨e, he, hs, hd⟩ | ⟨rfl, rfl⟩)
    · exact ⟨e, Or.inl he, hs, hd⟩
    · exact ⟨e₀, Or.inr rfl, rfl, rfl⟩

theorem hasEdge_iff {s : ManagerState} {u v : Nat} :
    hasEdge s u v = true ↔ EdgeRel s u v := by
  simp only [hasEdge, List.any_eq_true, Bool.and_eq_true, beq_iff_eq,
    EdgeRel, EdgeRelE]

theorem containsNat_iff {l : List Nat} {a : Nat} :
    l.contains a = true ↔ a ∈ l := by
  simp [List.contains, List.elem_iff]

theorem lookup_mem : ∀ {m : List (Nat × Nat)} {i v : Nat},
    List.lookup i m = some v → (i, v) ∈ m := by
  intro m
  induction m with
  | nil =>
    intro i v h
    simp [List.lookup] at h
  | cons p rest ih =>
    intro i v h
    obtain ⟨k, b⟩ := p
    simp only [List.lookup] at h
    cases hik : (i == k) with
    | true =>
      rw [hik] at h
      simp only [Option.some.injEq] at h
      subst h
      exact (beq_iff_eq.mp hik) ▸ List.mem_cons_self _ _
    | false =>
      rw [hik] at h
      exact List.mem_cons_of_mem _ (ih h)

/-! ### Invariants of API-reachable states -/

theorem apiReachable_wf {s : ManagerState} (h : APIReachable s) : WFState s := by
  induction h with
  | init =>
    exact ⟨by simp [emptyManager], by simp [emptyManager]⟩
  | regc hs hok ih =>
    unfold register_component at hok
    split at hok
    · simp only [Except.ok.injEq] at hok
      subst hok
      obtain ⟨ihE, ihM⟩ := ih
      constructor
      · intro e he
        have hb := ihE e he
        simp only [List.length_append, List.length_cons, List.length_nil]
        omega
      · intro p hp
        simp only [List.length_append, List.length_cons, List.length_nil]
        rcases List.mem_append.mp hp with hp | hp
        · have hb := ihM p hp
          omega
        · rcases List.mem_singleton.mp hp with rfl
          simp
    · exact Except.noConfusion hok
  | regd hs hok ih =>
    unfold register_dependency at hok
    split at hok
    · rename_i sv dv hsv hdv
      split at hok
      · exact Except.noConfusion hok
      · split at hok
        · exact Except.noConfusion hok
        · simp only [Except.ok.injEq] at hok
          subst hok
          obtain ⟨ihE, ihM⟩ := ih
          refine ⟨?_, ihM⟩
          intro e he
          rcases List.mem_append.mp he with he | he
          · exact ihE e he
          · rcases List.mem_singleton.mp he with rfl
            exact ⟨ihM _ (lookup_mem hsv), ihM _ (lookup_mem hdv)⟩
    · exact Except.noConfusion hok

theorem apiReachable_acyclic {s : ManagerState} (h : APIReachable s) :
    AcyclicState s := by
  induction h with
  | init =>
    intro v hv
    obtain ⟨w, hvw, -⟩ := Relation.TransGen.head'_iff.mp hv
    obtain ⟨e, he, -⟩ := hvw
    simp [emptyManager] at he
  | regc hs hok ih =>
    unfold register_component at hok
    split at hok
    · simp only [Except.ok.injEq] at hok
      subst hok
      intro v hv
      refine ih v (transGen_congr ?_ hv)
      intro x y
      exact Iff.rfl
    · exact Except.noConfusion hok
  | regd hs hok ih =>
    rename_i s₀ s' a b l
    have hwf := apiReachable_wf hs
    unfold register_dependency at hok
    split at hok
    · rename_i sv dv hsv hdv
      split at hok
      · exact Except.noConfusion hok
      · rename_i hdup
        split at hok
        · exact Except.noConfusion hok
        · rename_i hdet
          simp only [Except.ok.injEq] at hok
          subst hok
          have hnreach : ¬ Relation.ReflTransGen (EdgeRel s₀) dv sv := by
            intro hr
            apply hdet
            unfold detect_cycle
            rw [containsNat_iff]
            exact bfs_complete s₀.edges s₀.records.length dv
              (hwf.2 _ (lookup_mem hdv)) (fun e he => (hwf.1 e he).2) sv hr
          have hext := acyclic_extend (a := sv) (b := dv) ih hnreach
          intro v hv
          refine hext v (transGen_congr ?_ hv)
          intro x y
          exact edgeRel_append_iff s₀ ⟨sv, dv, l⟩ x y
    · exact Except.noConfusion hok

/-! ### The shutdown sweep only touches the vertex bundles -/

theorem clear_clear (c : DependencyComponent) : c.clear.clear = c.clear := rfl

theorem applyDeleter_records {s₀ s : ManagerState}
    (hlen : s.records.length = s₀.records.length)
    (h : ∀ v : Nat, s.records[v]? = s₀.records[v]? ∨
      s.records[v]? = (s₀.records[v]?).map DependencyComponent.clear)
    (u : Nat) :
    ∀ v : Nat, (applyDeleter s u).records[v]? = s₀.records[v]? ∨
      (applyDeleter s u).records[v]? =
        (s₀.records[v]?).map DependencyComponent.clear := by
  intro v
  by_cases hvu : u = v
  · subst hvu
    by_cases hlt : u < s.records.length
    · obtain ⟨c, hc⟩ : ∃ c, s.records[u]? = some c :=
        ⟨_, List.getElem?_eq_getElem hlt⟩
      have hset : (applyDeleter s u).records[u]? =
          some ((s.records.getD u default).clear) := by
        simp only [applyDeleter]
        exact List.getElem?_set_self hlt
      have hgetD : s.records.getD u default = c := by
        rw [List.getD_eq_getElem?_getD, hc]
        rfl
      rcases h u with h1 | h1
      · right
        rw [hset, hgetD, ← h1, hc]
        rfl
      · cases hc0 : s₀.records[u]? with
        | none =>
          rw [hc0, hc] at h1
          simp at h1
        | some c₀ =>
          right
          rw [hc0, hc] at h1
          simp only [Option.map_some'] at h1
          have hcc : c = c₀.clear := Option.some.inj h1
          rw [hset, hgetD, hcc, clear_clear]
          rfl
    · left
      have hnone : (applyDeleter s u).records[u]? = none := by
        apply List.getElem?_eq_none
        simp only [applyDeleter, List.length_set]
        omega
      have hnone₀ : s₀.records[u]? = none := List.getElem?_eq_none (by omega)
      rw [hnone, hnone₀]
  · have hnc : (applyDeleter s u).records[v]? = s.records[v]? := by
      simp only [applyDeleter]
      exact List.getElem?_set_ne hvu
    rw [hnc]
    exact h v

theorem runStack_frame : ∀ (us : List Nat) (s s₀ : ManagerState) (tr : List Nat),
    s.edges = s₀.edges → s.idMap = s₀.idMap →
    s.records.length = s₀.records.length →
    (∀ v : Nat, s.records[v]? = s₀.records[v]? ∨
      s.records[v]? = (s₀.records[v]?).map DependencyComponent.clear) →
    (runStack us s tr).1.edges = s₀.edges ∧
    (runStack us s tr).1.idMap = s₀.idMap ∧
    (runStack us s tr).1.records.length = s₀.records.length ∧
    (∀ v : Nat, (runStack us s tr).1.records[v]? = s₀.records[v]? ∨
      (runStack us s tr).1.records[v]? =
        (s₀.records[v]?).map DependencyComponent.clear) := by
  intro us
  induction us with
  | nil =>
    intro s s₀ tr hE hM hL hR
    exact ⟨hE, hM, hL, hR⟩
  | cons u us ih =>
    intro s s₀ tr hE hM hL hR
    simp only [runStack]
    exact ih (applyDeleter s u) s₀ (tr ++ [u]) hE hM
      (by simpa [applyDeleter] using hL) (applyDeleter_records hL hR u)

theorem runRoots_frame : ∀ (vs : List Nat) (s s₀ : ManagerState) (tr : List Nat),
    s.edges = s₀.edges → s.idMap = s₀.idMap →
    s.records.length = s₀.records.length →
    (∀ v : Nat, s.records[v]? = s₀.records[v]? ∨
      s.records[v]? = (s₀.records[v]?).map DependencyComponent.clear) →
    (runRoots vs s tr).1.edges = s₀.edges ∧
    (runRoots vs s tr).1.idMap = s₀.idMap ∧
    (runRoots vs s tr).1.records.length = s₀.records.length ∧
    (∀ v : Nat, (runRoots vs s tr).1.records[v]? = s₀.records[v]? ∨
      (runRoots vs s tr).1.records[v]? =
        (s₀.records[v]?).map DependencyComponent.clear) := by
  intro vs
  induction vs with
  | nil =>
    intro s s₀ tr hE hM hL hR
    exact ⟨hE, hM, hL, hR⟩
  | cons v vs ih =>
    intro s s₀ tr hE hM hL hR
    simp only [runRoots]
    by_cases hroot : is_root_dependency s.edges v = true
    · rw [if_pos hroot]
      obtain ⟨h1, h2, h3, h4⟩ :=
        runStack_frame (get_deletion_stack s v).reverse s s₀ [] hE hM hL hR
      exact ih _ s₀ _ h1 h2 h3 h4
    · rw [if_neg hroot]
      exact ih s s₀ tr hE hM hL hR

theorem clear_frame (s : ManagerState) :
    (clear s).1.edges = s.edges ∧ (clear s).1.idMap = s.idMap ∧
    (clear s).1.records.length = s.records.length ∧
    (∀ v : Nat, (clear s).1.records[v]? = s.records[v]? ∨
      (clear s).1.records[v]? = (s.records[v]?).map DependencyComponent.clear) :=
  runRoots_frame (List.range s.records.length) s s [] rfl rfl rfl
    (fun _ => Or.inl rfl)

/-! ### A cleanup failure aborts the sweep at the failing invocation -/

theorem runStackF_spec (fails : Nat → Bool) :
    ∀ (us : List Nat) (s : ManagerState) (tr : List Nat),
    (∀ w ∈ tr, fails w = false) →
    (∀ s' tr', runStackF fails us s tr = Except.ok (s', tr') →
      ∀ w ∈ tr', fails w = false) ∧
    (∀ s' tr' u, runStackF fails us s tr = Except.error (s', tr', u) →
      fails u = true ∧ tr'.getLast? = some u ∧
      ∀ w ∈ tr'.dropLast, fails w = false) := by
  intro us
  induction us with
  | nil =>
    intro s tr htr
    constructor
    · intro s' tr' hok
      simp only [runStackF, Except.ok.injEq, Prod.mk.injEq] at hok
      obtain ⟨rfl, rfl⟩ := hok
      exact htr
    · intro s' tr' u hok
      simp only [runStackF] at hok
      exact Except.noConfusion hok
  | cons u us ih =>
    intro s tr htr
    by_cases hf : fails u = true
    · constructor
      · intro s' tr' hok
        simp only [runStackF, if_pos hf] at hok
        exact Except.noConfusion hok
      · intro s' tr' w hok
        simp only [runStackF, if_pos hf, Except.error.injEq, Prod.mk.injEq] at hok
        obtain ⟨rfl, rfl, rfl⟩ := hok
        refine ⟨hf, List.getLast?_concat _, ?_⟩
        rw [List.dropLast_concat]
        exact htr
    · have hfu : fails u = false := by
        cases hfe : fails u
        · rfl
        · exact absurd hfe hf
      have htr' : ∀ w ∈ tr ++ [u], fails w = false := by
        intro w hw
        rcases List.mem_append.mp hw with hw | hw
        · exact htr w hw
        · rcases List.mem_singleton.mp hw with rfl
          exact hfu
      have hrec := ih (applyDeleter s u) (tr ++ [u]) htr'
      constructor
      · intro s' tr' hok
        simp only [runStackF, if_neg hf] at hok
        exact hrec.1 s' tr' hok
      · intro s' tr' w hok
        simp only [runStackF, if_neg hf] at hok
        exact hrec.2 s' tr' w hok

theorem runRootsF_spec (fails : Nat → Bool) :
    ∀ (vs : List Nat) (s : ManagerState) (tr : List Nat),
    (∀ w ∈ tr, fails w = false) →
    (∀ s' tr', runRootsF fails vs s tr = Except.ok (s', tr') →
      ∀ w ∈ tr', fails w = false) ∧
    (∀ s' tr' u, runRootsF fails vs s tr = Except.error (s', tr', u) →
      fails u = true ∧ tr'.getLast? = some u ∧
      ∀ w ∈ tr'.dropLast, fails w = false) := by
  intro vs
  induction vs with
  | nil =>
    intro s tr htr
    constructor
    · intro s' tr' hok
      simp only [runRootsF, Except.ok.injEq, Prod.mk.injEq] at hok
      obtain ⟨rfl, rfl⟩ := hok
      exact htr
    · intro s' tr' u hok
      simp only [runRootsF] at hok
      exact Except.noConfusion hok
  | cons v vs ih =>
    intro s tr htr
    by_cases hroot : is_root_dependency s.edges v = true
    · constructor
      · intro s' tr' hok
        simp only [runRootsF, if_pos hroot] at hok
        cases hst : runStackF fails (get_deletion_stack s v).reverse s tr with
        | ok p =>
          obtain ⟨s₁, tr₁⟩ := p
          simp only [hst] at hok
          have h1 := (runStackF_spec fails _ s tr htr).1 s₁ tr₁ hst
          exact (ih s₁ tr₁ h1).1 s' tr' hok
        | error e =>
          simp only [hst] at hok
          exact Except.noConfusion hok
      · intro s' tr' w hok
        simp only [runRootsF, if_pos hroot] at hok
        cases hst : runStackF fails (get_deletion_stack s v).reverse s tr with
        | ok p =>
          obtain ⟨s₁, tr₁⟩ := p
          simp only [hst] at hok
          have h1 := (runStackF_spec fails _ s tr htr).1 s₁ tr₁ hst
          exact (ih s₁ tr₁ h1).2 s' tr' w hok
        | error e =>
          obtain ⟨s₁, tr₁, u₁⟩ := e
          simp only [hst, Except.error.injEq, Prod.mk.injEq] at hok
          obtain ⟨rfl, rfl, rfl⟩ := hok
          exact (runStackF_spec fails _ s tr htr).2 s₁ tr₁ u₁ hst
    · constructor
      · intro s' tr' hok
        simp only [runRootsF, if_neg hroot] at hok
        exact (ih s tr htr).1 s' tr' hok
      · intro s' tr' w hok
        simp only [runRootsF, if_neg hroot] at hok
        exact (ih s tr htr).2 s' tr' w hok

theorem clearF_spec (fails : Nat → Bool) (s : ManagerState) :
    (∀ s' tr, clearF fails s = Except.ok (s', tr) → ∀ w ∈ tr, fails w = false) ∧
    (∀ s' tr u, clearF fails s = Except.error (s', tr, u) →
      fails u = true ∧ tr.getLast? = some u ∧
      ∀ w ∈ tr.dropLast, fails w = false) :=
  runRootsF_spec fails (List.range s.records.length) s [] (by simp)

/-! ### Reachability of the concrete states through the public API -/

theorem reachable_st1 : APIReachable st1 :=
  APIReachable.regc (i := 10) APIReachable.init rfl

theorem reachable_st2 : APIReachable st2 :=
  APIReachable.regc (i := 11) reachable_st1 rfl

theorem reachable_stChain : APIReachable stChain :=
  APIReachable.regd (a := 10) (b := 11) (l := 7) reachable_st2 rfl

theorem reachable_stTri : APIReachable stTri :=
  APIReachable.regd (a := 12) (b := 11) (l := 0)
    (APIReachable.regd (a := 10) (b := 12) (l := 0)
      (APIReachable.regd (a := 10) (b := 11) (l := 0)
        (APIReachable.regc (i := 12) reachable_st2 rfl) rfl) rfl) rfl

theorem reachable_stTwoRoots : APIReachable stTwoRoots :=
  APIReachable.regd (a := 11) (b := 12) (l := 0)
    (APIReachable.regd (a := 10) (b := 12) (l := 0)
      (APIReachable.regc (i := 12) reachable_st2 rfl) rfl) rfl

theorem detect_cycle_iff {s : ManagerState} (hwf : WFState s) {srcV dstV : Nat}
    (hdst : dstV < s.records.length) :
    detect_cycle s srcV dstV = true ↔ Reaches s dstV srcV := by
  unfold detect_cycle Reaches EdgeRel
  rw [containsNat_iff]
  exact bfs_mem_iff s.edges s.records.length dstV hdst
    (fun e he => (hwf.1 e he).2) srcV

/-! ### The claims -/

/-- Claim C1: for every API-reachable graph state and registered ids `a`
and `b`, `register_dependency a b label` fails with the would-cycle error
iff `b` (vertex `vb`) already reaches `a` (vertex `va`) along the directed
edges present at the time of the call — the check being the BFS of
`detect_cycle` started at `b` over out-edges, testing whether `a` is
discovered. -/
theorem cycle_rejection_exact (s : ManagerState) (a b l va vb : Nat)
    (hs : APIReachable s)
    (ha : List.lookup a s.idMap = some va)
    (hb : List.lookup b s.idMap = some vb) :
    IsWouldCycleError (register_dependency s a b l) ↔ Reaches s vb va := by
  have hwf := apiReachable_wf hs
  have hac := apiReachable_acyclic hs
  unfold register_dependency
  simp only [ha, hb]
  by_cases hdup : hasEdge s va vb = true
  · rw [if_pos hdup]
    constructor
    · rintro ⟨s', heq⟩
      simp only [Except.error.injEq, Prod.mk.injEq] at heq
      exact absurd heq.1 (by simp)
    · intro hr
      exfalso
      exact hac va (Relation.TransGen.head' (hasEdge_iff.mp hdup) hr)
  · rw [if_neg hdup]
    by_cases hdet : detect_cycle s va vb = true
    · rw [if_pos hdet]
      constructor
      · intro _
        exact (detect_cycle_iff hwf (hwf.2 _ (lookup_mem hb))).mp hdet
      · intro _
        exact ⟨s, rfl⟩
    · rw [if_neg hdet]
      constructor
      · rintro ⟨s', heq⟩
        exact Except.noConfusion heq
      · intro hr
        exact absurd ((detect_cycle_iff hwf (hwf.2 _ (lookup_mem hb))).mpr hr) hdet

/-- Witness for C1: on the concrete two-component chain (edge `0 → 1`),
registering the dependency `(11, 10)` is rejected as a would-cycle exactly
because vertex 0 reaches vertex 1. -/
theorem cycle_rejection_exact_witness :
    IsWouldCycleError (register_dependency stChain 11 10 5) ↔
      Reaches stChain 0 1 :=
  cycle_rejection_exact stChain 11 10 5 1 0 reachable_stChain rfl rfl

/-- Claim C2: every state produced by a sequence of `register_component` /
`register_dependency` calls in which each `register_dependency` succeeded
has an acyclic dependency graph; acyclicity is an invariant between API
calls. -/
theorem acyclicity_preserved (s : ManagerState) (hs : APIReachable s) :
    AcyclicState s :=
  apiReachable_acyclic hs

/-- Witness for C2 at the concrete chain state. -/
theorem acyclicity_preserved_witness : AcyclicState stChain :=
  acyclicity_preserved stChain reachable_stChain

/-- Claim C3, evaluated at the failing input (code bug): in the reachable
graph `stTri` with edges `0 → 1`, `0 → 2`, `2 → 1`, the shutdown sweep
invokes the cleanups in trace order `[2, 1, 0]`, so for the live edge
`(2, 1)` the cleanup of vertex 1 does **not** complete before the cleanup
of vertex 2 is entered — reverse-BFS order violates the claimed edge
ordering. -/
theorem teardown_order_violation :
    APIReachable stTri ∧ clear stTri = (stTri, [2, 1, 0]) ∧
    EdgeRec.mk 2 1 0 ∈ stTri.edges ∧
    ¬ invokedBefore (clear stTri).2 1 2 :=
  ⟨reachable_stTri, by decide, by decide, by unfold invokedBefore; decide⟩

/-- Claim C4, evaluated at the failing input (code bug): in the reachable
two-root graph `stTwoRoots` (edges `0 → 2`, `1 → 2`), the sweep invokes
the cleanup of vertex 2 twice (trace `[2, 0, 2, 1]`, the `keep_all`
filter skips nothing), and afterwards the record of vertex 2 still has
`is_deleted = false` — it never reaches the claimed `CleanedUp` state. -/
theorem teardown_coverage_violation :
    APIReachable stTwoRoots ∧ clear stTwoRoots = (stTwoRoots, [2, 0, 2, 1]) ∧
    (clear stTwoRoots).2.count 2 = 2 ∧
    (clear stTwoRoots).1.records[2]? = some ⟨false, 12⟩ :=
  ⟨reachable_stTwoRoots, by decide, by decide, by decide⟩

/-- Claim C5: every failing `register_component` / `register_dependency`
call throws before any mutation, so the state carried at the throw site is
exactly the pre-call state: no vertex, edge, id-map entry or label is
added or modified. -/
theorem registration_error_frame (s : ManagerState) (i a b l : Nat)
    (c : DependencyComponent) (e : RegError) (s' : ManagerState) :
    (register_component s i c = Except.error (e, s') → s' = s) ∧
    (register_dependency s a b l = Except.error (e, s') → s' = s) := by
  constructor
  · intro h
    unfold register_component at h
    split at h
    · exact Except.noConfusion h
    · simp only [Except.error.injEq, Prod.mk.injEq] at h
      exact h.2.symm
  · intro h
    unfold register_dependency at h
    split at h
    · split at h
      · simp only [Except.error.injEq, Prod.mk.injEq] at h
        exact h.2.symm
      · split at h
        · simp only [Except.error.injEq, Prod.mk.injEq] at h
          exact h.2.symm
        · exact Except.noConfusion h
    · simp only [Except.error.injEq, Prod.mk.injEq] at h
      exact h.2.symm

/-- Witness for C5: the unknown-id failure on the empty manager leaves the
empty state. -/
theorem registration_error_frame_witness : emptyManager = emptyManager :=
  (registration_error_frame emptyManager 0 1 2 3 (mkComponent 0)
    RegError.unknownId emptyManager).2 rfl

/-- Claim C6 counterexample: with two live isolated components and the
cleanup of vertex 0 failing, the sweep aborts immediately — the result is
the propagated exception, the trace is `[0]`, vertex 1's cleanup is never
attempted, the failing record is not marked, and no aggregate error
listing failing ids is produced. -/
theorem cleanup_failure_counterexample :
    clearF failsV0 st2 = Except.error (st2, [0], 0) ∧
    ¬ (1 ∈ sweepTrace (clearF failsV0 st2)) :=
  ⟨rfl, by decide⟩

/-- Claim C6 amended: if a cleanup action fails during the sweep, the
failure propagates out immediately: the sweep completes normally only when
no invoked cleanup failed, and on failure the trace ends at the failing
vertex, every earlier invocation succeeded, and nothing after it is
attempted. -/
theorem cleanup_failure_aborts (fails : Nat → Bool) (s : ManagerState) :
    (∀ s' tr, clearF fails s = Except.ok (s', tr) → ∀ w ∈ tr, fails w = false) ∧
    (∀ s' tr u, clearF fails s = Except.error (s', tr, u) →
      fails u = true ∧ tr.getLast? = some u ∧
      ∀ w ∈ tr.dropLast, fails w = false) :=
  clearF_spec fails s

/-- Witness for the amended C6 at the concrete aborted sweep. -/
theorem cleanup_failure_aborts_witness :
    failsV0 0 = true ∧ ([0] : List Nat).getLast? = some 0 ∧
    ∀ w ∈ ([0] : List Nat).dropLast, failsV0 w = false :=
  (cleanup_failure_aborts failsV0 st2).2 st2 [0] 0 rfl

/-- Claim C7 counterexample: after the shutdown sweep on a one-component
manager, a further `register_component` call succeeds and mutates the
graph instead of failing with a shutdown-already error (no such error
exists in the code, which has no coordinator lifecycle state). -/
theorem post_shutdown_registration_succeeds :
    register_component (clear st1).1 20 (mkComponent 20) =
      Except.ok ⟨[⟨false, 10⟩, ⟨false, 20⟩], [], [(10, 0), (20, 1)]⟩ := rfl

/-- Claim C7 amended: the sweep leaves no coordinator state behind; a
further call is processed by the ordinary registration rules, so
registering a still-unregistered id after shutdown succeeds (and mutates
the graph). -/
theorem post_shutdown_open (s : ManagerState) (i : Nat)
    (h : List.lookup i s.idMap = none) :
    ∃ s', register_component (clear s).1 i (mkComponent i) = Except.ok s' := by
  have hid : (clear s).1.idMap = s.idMap := (clear_frame s).2.1
  unfold register_component
  rw [hid, h]
  exact ⟨_, rfl⟩

/-- Witness for the amended C7. -/
theorem post_shutdown_open_witness :
    ∃ s', register_component (clear st1).1 20 (mkComponent 20) = Except.ok s' :=
  post_shutdown_open st1 20 rfl

/-- Claim C8, evaluated at the failing input (code bug):
`DependencyComponent::clear` assigns `is_deleted = false`, so a record on
which the cleanup ran stays Live (`(clear st1)` runs vertex 0's cleanup
yet leaves `is_deleted = false`), and the operation applied to a
CleanedUp record (`is_deleted = true`, the default-constructed state)
yields a Live one — the opposite of the claimed one-way
`Live → CleanedUp` transition. -/
theorem state_monotonicity_violation :
    DependencyComponent.clear ⟨true, 5⟩ = ⟨false, 5⟩ ∧
    (clear st1).2 = [0] ∧ (clear st1).1.records[0]? = some ⟨false, 10⟩ :=
  ⟨rfl, by decide, by decide⟩

/-- Claim C9: for a registered id `a`, a self-loop registration
`register_dependency a a label` fails with the would-cycle error and
leaves the graph unchanged: the BFS of `detect_cycle` starts at the
destination vertex, discovers it first, and the discovered vertex equals
the source, so the error is raised before any edge is added. -/
theorem self_loop_rejected (s : ManagerState) (a v l : Nat)
    (hs : APIReachable s) (ha : List.lookup a s.idMap = some v) :
    register_dependency s a a l = Except.error (RegError.wouldCycle, s) := by
  have hac := apiReachable_acyclic hs
  unfold register_dependency
  simp only [ha]
  have hne : hasEdge s v v = false := by
    cases hhe : hasEdge s v v
    · rfl
    · exact absurd (hac v (Relation.TransGen.single (hasEdge_iff.mp hhe))) id
  have hdet : detect_cycle s v v = true := by
    unfold detect_cycle
    rw [containsNat_iff]
    exact root_mem_bfsFrom _ _ _
  simp [hne, hdet]

/-- Witness for C9 at the concrete one-component state. -/
theorem self_loop_rejected_witness :
    register_dependency st1 10 10 3 = Except.error (RegError.wouldCycle, st1) :=
  self_loop_rejected st1 10 0 3 reachable_st1 rfl

/-- Claim C10: the shutdown sweep never changes the graph structure —
after `clear` the edge list (with its labels), the id map and the vertex
count are exactly as before; the only state it touches are the vertex
records, each either untouched or overwritten by its
`DependencyComponent::clear` image (its cleanup invocations are the
returned trace). -/
theorem shutdown_frame (s : ManagerState) :
    (clear s).1.edges = s.edges ∧ (clear s).1.idMap = s.idMap ∧
    (clear s).1.records.length = s.records.length ∧
    (∀ v : Nat, (clear s).1.records[v]? = s.records[v]? ∨
      (clear s).1.records[v]? = (s.records[v]?).map DependencyComponent.clear) :=
  clear_frame s
